import Mathlib

/-!
# Verification of the itrk idea-tracking data layer

Shallow embedding of `src/itrk/data.py`: the `Idea` record with its
markdown (yaml metadata + body) serialization, and the `IdeaManager`
CRUD operations over a directory of one-file-per-idea markdown files.

Modelling conventions:
* Python strings are Lean `String`s; the string machinery (splitting,
  trimming) is defined on `List Char` and mirrors the CPython functions
  used by the source (`str.split(sep, 2)`, `str.strip()`, `str(int)`).
* `yaml.dump(metadata, default_flow_style=False)` and
  `yaml.safe_load` are modelled on the fragment that the serializer
  of this very program emits: keys sorted alphabetically (`id`, `modified`,
  `tags`, `title`), integers in decimal, strings as plain (unquoted)
  scalars, tag lists in indentless block style (`- item` lines) and
  `[]` for the empty list.  The parser is deliberately strict: a
  scalar outside this fragment (one pyyaml would quote, or resolve to
  a bool/null/float) is a parse error in the model, so every theorem
  whose hypotheses mention a successful parse stays inside the
  faithfully modelled fragment.
* `datetime.now()` is an explicit clock argument: the value
  `generate_timestamp` would return is passed to the operation.
* The notes directory is an association list of (file name, file
  contents); `os.listdir` enumerates it in list order.
* Python exceptions raised inside `from_markdown` (ValueError from
  tuple unpacking, yaml errors, KeyError, int() failures) are the
  spec-level `FormatError`; they are one Lean error type `FormatErr`
  since the source never discriminates among them.
-/

namespace Itrk

/-! ## Character-list utilities -/

/-- First occurrence of the delimiter `---`: returns the text before the
first `---` and the text after it, or `none` when there is none.  Two
chained applications model CPython `text.split("---", 2)`. -/
def breakOnDDD : List Char → Option (List Char × List Char)
  | [] => none
  | c :: rest =>
    if c = '-' ∧ rest.take 2 = ['-', '-'] then some ([], rest.drop 2)
    else (breakOnDDD rest).map (fun p => (c :: p.1, p.2))

/-- `text.split("---", 2)` from `Idea.from_markdown`, together with the
tuple unpacking `metadata, content = ...[1:]`: succeeds exactly when the
text contains at least two occurrences of `---`, yielding the part
before the first, the part between the first and second, and everything
after the second. -/
def pySplit2 (l : List Char) : Option (List Char × List Char × List Char) :=
  (breakOnDDD l).bind (fun p =>
    (breakOnDDD p.2).map (fun q => (p.1, q.1, q.2)))

/-- First occurrence of `": "` in a line: key/value split of a yaml
mapping line. -/
def breakOnCS : List Char → Option (List Char × List Char)
  | [] => none
  | c :: rest =>
    if c = ':' ∧ rest.head? = some ' ' then some ([], rest.tail)
    else (breakOnCS rest).map (fun p => (c :: p.1, p.2))

/-- Split on every occurrence of one separator character (CPython
`str.split(sep)` for a one-character separator, as used line-splitting
the yaml block). -/
def splitOnCh (sep : Char) : List Char → List (List Char)
  | [] => [[]]
  | c :: rest =>
    if c = sep then [] :: splitOnCh sep rest
    else
      match splitOnCh sep rest with
      | [] => [[c]]
      | g :: gs => (c :: g) :: gs

/-- Join with a separator character (inverse of `splitOnCh` on
separator-free pieces). -/
def interCh (sep : Char) : List (List Char) → List Char
  | [] => []
  | [l] => l
  | l :: l2 :: ls => l ++ sep :: interCh sep (l2 :: ls)

/-- CPython `str.strip()`: drop leading and trailing whitespace. -/
def trimChars (l : List Char) : List Char :=
  ((l.dropWhile Char.isWhitespace).reverse.dropWhile Char.isWhitespace).reverse

/-- `str.strip()` on `String`. -/
def trimString (s : String) : String := ⟨trimChars s.data⟩

/-- CPython `s.endswith(post)`. -/
def strEndsWith (s post : String) : Bool := post.data.isSuffixOf s.data

/-! ## Decimal representation of integers (CPython `str(int)`) -/

/-- The decimal digit characters. -/
def digitCharOf (n : Nat) : Char :=
  match n with
  | 0 => '0' | 1 => '1' | 2 => '2' | 3 => '3' | 4 => '4'
  | 5 => '5' | 6 => '6' | 7 => '7' | 8 => '8' | _ => '9'

/-- Numeric value of a decimal digit character. -/
def digitValOf (c : Char) : Nat :=
  if c = '0' then 0 else if c = '1' then 1 else if c = '2' then 2
  else if c = '3' then 3 else if c = '4' then 4 else if c = '5' then 5
  else if c = '6' then 6 else if c = '7' then 7 else if c = '8' then 8
  else 9

/-- Fuel-driven decimal digits of a natural number (most significant
first); fuel `n + 1` always suffices. -/
def natReprAux : Nat → Nat → List Char
  | 0, _ => []
  | fuel + 1, n =>
    if n < 10 then [digitCharOf n]
    else natReprAux fuel (n / 10) ++ [digitCharOf (n % 10)]

/-- Decimal digits of a natural number. -/
def natRepr (n : Nat) : List Char := natReprAux (n + 1) n

/-- CPython `str(i)` for an `int`: optional minus sign then decimal
digits. -/
def intRepr (i : Int) : List Char :=
  if i < 0 then '-' :: natRepr i.natAbs else natRepr i.toNat

/-- Value of a list of decimal digit characters. -/
def natOfDigits (l : List Char) : Nat :=
  l.foldl (fun a c => a * 10 + digitValOf c) 0

/-- No leading zero (except the single digit `0` itself): the shapes
`str(int)` produces. -/
def noLeadZero (l : List Char) : Bool :=
  l.head? ≠ some '0' || l = ['0']

/-- Does this scalar text denote an integer in the modelled yaml
fragment (exactly the shapes `str(int)` produces)? -/
def intShape (l : List Char) : Bool :=
  match l with
  | '-' :: rest => !rest.isEmpty && rest.all Char.isDigit && noLeadZero rest
  | _ => !l.isEmpty && l.all Char.isDigit && noLeadZero l

/-- Integer value of a scalar satisfying `intShape`. -/
def parseIntChars (l : List Char) : Int :=
  match l with
  | '-' :: rest => -(natOfDigits rest : Int)
  | _ => (natOfDigits l : Int)

/-! ## The plain-scalar fragment of yaml -/

/-- Characters that keep a scalar plain (unquoted) under pyyaml and
inert for the line/delimiter structure of the file format. -/
def plainChar (c : Char) : Bool :=
  c.isAlphanum || c = ' ' || c = '_' || c = '.' || c = '-'

/-- Words `yaml.safe_load` would resolve to a bool or null instead of a
string. -/
def yamlKeywords : List (List Char) :=
  ["true".data, "True".data, "TRUE".data, "false".data, "False".data,
   "FALSE".data, "yes".data, "Yes".data, "YES".data, "no".data,
   "No".data, "NO".data, "on".data, "On".data, "ON".data, "off".data,
   "Off".data, "OFF".data, "null".data, "Null".data, "NULL".data]

/-- A scalar inside the modelled fragment: nonempty, made of
`plainChar`s, starting with a letter (so pyyaml emits it plain and
resolves it back to a string), not ending in a space, not a keyword,
not integer-shaped, not the empty-list literal, and containing no
`---`.  The last condition is vacuous for any value reaching the
parser through `from_markdown` — the metadata block sits between the
first two `---` of the file, so it cannot contain one — and keeps the
fragment closed under re-serialization. -/
def plainValueOk (v : List Char) : Bool :=
  !v.isEmpty && v.all plainChar
    && (match v.head? with | some c => c.isAlpha | none => false)
    && v.getLast? ≠ some ' '
    && !yamlKeywords.contains v
    && !intShape v
    && v ≠ "[]".data
    && (breakOnDDD v).isNone

/-- A title or tag that serializes and parses back unchanged: a plain
scalar of the modelled fragment (in particular containing no `---`,
which `from_markdown` would split on as a document delimiter). -/
def safeField (s : String) : Bool :=
  plainValueOk s.data

/-! ## The Idea record (`class Idea`) -/

/-- One idea: `Idea.__init__` fields. -/
structure Idea where
  id : Int
  title : String
  modified : Int
  tags : List String
  content : String
deriving DecidableEq, Repr

/-- The spec-level `FormatError`: everything `Idea.from_markdown` can raise
(tuple-unpack ValueError, yaml errors, KeyError, `int()` failures). -/
inductive FormatErr where
  | fmt (msg : String)
deriving DecidableEq, Repr

/-- Decidable equality of call results, so that concrete runs of the
embedded operations can be checked by evaluation. -/
instance exceptDecEq {ε α : Type} [DecidableEq ε] [DecidableEq α] :
    DecidableEq (Except ε α) := fun
  | .error e1, .error e2 =>
    if h : e1 = e2 then isTrue (by rw [h])
    else isFalse (by intro hc; injection hc; contradiction)
  | .error _, .ok _ => isFalse (fun hc => Except.noConfusion hc)
  | .ok _, .error _ => isFalse (fun hc => Except.noConfusion hc)
  | .ok a1, .ok a2 =>
    if h : a1 = a2 then isTrue (by rw [h])
    else isFalse (by intro hc; injection hc; contradiction)

/-- Values of the modelled yaml fragment. -/
inductive YVal where
  | vint (n : Int)
  | vstr (s : List Char)
  | vlist (items : List (List Char))
deriving DecidableEq, Repr

/-! ### Serialization (`Idea.to_markdown`) -/

/-- The lines of `yaml.dump(metadata, default_flow_style=False)` for
the metadata dict of `to_markdown`: keys in sorted order `id`,
`modified`, `tags`, `title`; a nonempty tag list in indentless block
style, the empty list as `[]`. -/
def metaLines (r : Idea) : List (List Char) :=
  ("id: ".data ++ intRepr r.id) ::
    ("modified: ".data ++ intRepr r.modified) ::
      ((if r.tags.isEmpty then ["tags: []".data]
        else "tags:".data :: r.tags.map (fun t => '-' :: ' ' :: t.data))
        ++ [("title: ".data ++ r.title.data)])

/-- The stripped yaml metadata block of `to_markdown`. -/
def metaChars (r : Idea) : List Char := interCh '\n' (metaLines r)

/-- `Idea.to_markdown`: `"---\n" + yaml_metadata + "\n---\n\n" + content`. -/
def toMarkdown (r : Idea) : String :=
  ⟨"---\n".data ++ metaChars r ++ "\n---\n\n".data ++ r.content.data⟩

/-! ### Deserialization (`Idea.from_markdown`) -/

/-- Scalar resolution of `yaml.safe_load` on the modelled fragment:
the empty flow list, a decimal integer, or a plain string scalar;
anything else is outside the fragment and rejected. -/
def resolveScalar (v : List Char) : Except FormatErr YVal :=
  if v = "[]".data then .ok (.vlist [])
  else if intShape v then .ok (.vint (parseIntChars v))
  else if plainValueOk v then .ok (.vstr v)
  else .error (.fmt "scalar outside modelled yaml fragment")

/-- Close a pending block-sequence key, committing its collected items. -/
def commitPending (acc : List (List Char × YVal)) :
    Option (List Char × List (List Char)) → List (List Char × YVal)
  | none => acc
  | some (k, items) => acc ++ [(k, .vlist items)]

/-- Line-by-line parse of the yaml metadata block (the modelled
`yaml.safe_load`): mapping lines `key: value`, block-sequence openers
`key:`, indentless items `- value`, blank lines skipped. -/
def procLines (acc : List (List Char × YVal))
    (pend : Option (List Char × List (List Char))) :
    List (List Char) → Except FormatErr (List (List Char × YVal))
  | [] => .ok (commitPending acc pend)
  | l :: rest =>
    if l.all Char.isWhitespace then procLines acc pend rest
    else if l.take 2 = ['-', ' '] then
      match pend with
      | some (k, items) =>
        let item := trimChars (l.drop 2)
        if plainValueOk item then
          procLines acc (some (k, items ++ [item])) rest
        else .error (.fmt "sequence item outside modelled yaml fragment")
      | none => .error (.fmt "sequence item without a key")
    else
      match breakOnCS l with
      | some (k, v) =>
        match resolveScalar (trimChars v) with
        | .ok yv => procLines (commitPending acc pend ++ [(k, yv)]) none rest
        | .error e => .error e
      | none =>
        if l.getLast? = some ':' then
          procLines (commitPending acc pend) (some (l.dropLast, [])) rest
        else .error (.fmt "line is not a mapping entry")

/-- `yaml.safe_load` on the metadata block, as a key/value list. -/
def parseMeta (l : List Char) : Except FormatErr (List (List Char × YVal)) :=
  procLines [] none (splitOnCh '\n' l)

/-- Dictionary lookup `metadata[key]` / `metadata.get(key)`. -/
def metaLookup (kvs : List (List Char × YVal)) (k : List Char) : Option YVal :=
  (kvs.find? (fun p => p.1 == k)).map (fun p => p.2)

/-- `int(value)` on a loaded yaml value: an already-int value passes
through; a string scalar was resolved as a string precisely because it
is not integer-shaped, so `int()` raises; `int(list)` raises. -/
def coerceInt : YVal → Except FormatErr Int
  | .vint n => .ok n
  | _ => .error (.fmt "int() failed")

/-- The `title` field: a string scalar of the fragment. -/
def coerceTitle : YVal → Except FormatErr String
  | .vstr s => .ok ⟨s⟩
  | _ => .error (.fmt "title outside modelled yaml fragment")

/-- The `tags` field: a block sequence (or `[]`) of string scalars. -/
def coerceTags : YVal → Except FormatErr (List String)
  | .vlist items => .ok (items.map (fun i => (⟨i⟩ : String)))
  | _ => .error (.fmt "tags outside modelled yaml fragment")

/-- The `Idea(...)` constructor call of `from_markdown` (lines 46-52):
read `id`, `title`, `modified` (required keys, in the evaluation order
of the Python keyword arguments), `tags` defaulting to `[]`, and strip
the body. -/
def buildIdeaFromKvs (kvs : List (List Char × YVal)) (body : List Char) :
    Except FormatErr Idea :=
  match metaLookup kvs "id".data with
  | none => .error (.fmt "KeyError id")
  | some idv =>
    match coerceInt idv with
    | .error e => .error e
    | .ok idN =>
      match metaLookup kvs "title".data with
      | none => .error (.fmt "KeyError title")
      | some titlev =>
        match coerceTitle titlev with
        | .error e => .error e
        | .ok titleS =>
          match metaLookup kvs "modified".data with
          | none => .error (.fmt "KeyError modified")
          | some modv =>
            match coerceInt modv with
            | .error e => .error e
            | .ok modN =>
              match coerceTags ((metaLookup kvs "tags".data).getD (.vlist [])) with
              | .error e => .error e
              | .ok tagsL => .ok ⟨idN, titleS, modN, tagsL, ⟨trimChars body⟩⟩

/-- `yaml.safe_load(metadata)` followed by the record construction. -/
def buildFromParts (metaStr body : List Char) : Except FormatErr Idea :=
  match parseMeta metaStr with
  | .error e => .error e
  | .ok kvs => buildIdeaFromKvs kvs body

/-- `Idea.from_markdown` on file text: split on the first two `---`,
parse the metadata block, and build the record. -/
def fromMarkdownText (text : String) : Except FormatErr Idea :=
  match pySplit2 text.data with
  | none => .error (.fmt "unpack of split failed")
  | some (_, metaStr, body) => buildFromParts metaStr body

/-! ## The store (`class IdeaManager`) -/

/-- The notes directory: file names with their contents, in
`os.listdir` order. -/
abbrev Store := List (String × String)

/-- `IdeaManager._get_idea_file_path`: the file name for an id. -/
def ideaFileName (id : Int) : String := ⟨"idea".data ++ intRepr id ++ ".md".data⟩

/-- Contents of a file, `none` when `os.path.exists` is false. -/
def lookupFile (s : Store) (name : String) : Option String :=
  ((s : List (String × String)).find? (fun f => f.1 == name)).map (fun f => f.2)

/-- `open(file_path, "w")` followed by a full write: replace the file
if it exists, create it otherwise. -/
def setFile (s : Store) (name contents : String) : Store :=
  (s : List (String × String)).filter (fun f => !(f.1 == name)) ++ [(name, contents)]

/-- `IdeaManager.save_idea`. -/
def saveIdea (s : Store) (r : Idea) : Store :=
  setFile s (ideaFileName r.id) (toMarkdown r)

/-- `IdeaManager.load_idea_by_id`: `ok none` when the file is absent,
an error when it exists but `from_markdown` raises. -/
def loadIdeaById (s : Store) (id : Int) : Except FormatErr (Option Idea) :=
  match lookupFile s (ideaFileName id) with
  | none => .ok none
  | some txt => (fromMarkdownText txt).map some

/-- `IdeaManager.create_new_idea` at clock value `now`
(`generate_timestamp`): the new record and the updated store. -/
def createNewIdea (s : Store) (now : Int) (title : String)
    (tags : List String) (content : String) : Idea × Store :=
  let r : Idea := ⟨now, title, now, tags, content⟩
  (r, saveIdea s r)

/-- The field mutations of `update_idea` (lines 120-127): `if title:`
and `if content:` are truthiness tests, skipping `None` and the empty
string; `if tags is not None:` applies any supplied list, empty
included; `modified` is always set to the clock value. -/
def applyUpdate (r : Idea) (title : Option String)
    (tags : Option (List String)) (content : Option String)
    (now : Int) : Idea :=
  let r1 := match title with
    | some t => if t = "" then r else { r with title := t }
    | none => r
  let r2 := match tags with
    | some l => { r1 with tags := l }
    | none => r1
  let r3 := match content with
    | some c => if c = "" then r2 else { r2 with content := c }
    | none => r2
  { r3 with modified := now }

/-- `IdeaManager.update_idea` at clock value `now`: load, mutate, save;
`false` without any write when the id names no file. -/
def updateIdea (s : Store) (now : Int) (id : Int) (title : Option String)
    (tags : Option (List String)) (content : Option String) :
    Except FormatErr (Bool × Store) :=
  match loadIdeaById s id with
  | .error e => .error e
  | .ok none => .ok (false, s)
  | .ok (some r) =>
    let r2 := applyUpdate r title tags content now
    .ok (true, saveIdea s r2)

/-- `IdeaManager.delete_idea`: remove the file when present. -/
def deleteIdea (s : Store) (id : Int) : Bool × Store :=
  if (lookupFile s (ideaFileName id)).isSome then
    (true, (s : List (String × String)).filter (fun f => !(f.1 == ideaFileName id)))
  else (false, s)

/-- `IdeaManager.load_all_ideas`: parse every file whose name ends in
`.md`, in directory order; an unparseable file raises out of the loop. -/
def loadAllIdeas (s : Store) : Except FormatErr (List Idea) :=
  ((s : List (String × String)).filter (fun f => strEndsWith f.1 ".md")).mapM
    (fun f => fromMarkdownText f.2)

/-! ## Directory creation (`IdeaManager.__init__`) -/

/-- The spec-level `StorageError`: the OSError family raised by failing
filesystem calls. -/
inductive StorageErr where
  | storage
deriving DecidableEq, Repr

/-- A filesystem for `__init__`: sets of directory paths and
non-directory (file) paths, as component lists. -/
structure Fs where
  dirs : List (List String)
  files : List (List String)
deriving DecidableEq, Repr

/-- `os.path.exists`. -/
def fsExists (fs : Fs) (p : List String) : Bool :=
  p ∈ fs.dirs ∨ p ∈ fs.files

/-- The nonempty ancestor chain of a path, shortest first, ending in
the path itself. -/
def ancestorsOf (p : List String) : List (List String) :=
  (List.range p.length).map (fun i => p.take (i + 1))

/-- One `os.mkdir` step as `os.makedirs` performs it: a non-directory
entry in the way raises, an existing directory is kept, a missing one
is created. -/
def mkdirOne (fs : Fs) (q : List String) : Except StorageErr Fs :=
  if q ∈ fs.files then .error .storage
  else if q ∈ fs.dirs then .ok fs
  else .ok { fs with dirs := fs.dirs ++ [q] }

/-- `os.makedirs(directory)`: create every missing ancestor, then the
directory. -/
def makedirs (fs : Fs) (p : List String) : Except StorageErr Fs :=
  (ancestorsOf p).foldlM mkdirOne fs

/-- `IdeaManager.__init__` (lines 66-69): `os.makedirs(directory)` only
when `os.path.exists(directory)` is false; an existing entry — whether
a directory or not — is accepted untouched. -/
def ideaManagerInit (fs : Fs) (dir : List String) : Except StorageErr Fs :=
  if fsExists fs dir then .ok fs else makedirs fs dir

/-! ## Auxiliary predicates used by the verification -/

/-- Did this call raise (the spec-level `FormatError`)? -/
def exceptErr {α : Type} (e : Except FormatErr α) : Bool :=
  match e with
  | .error _ => true
  | .ok _ => false

/-- Invariant on parsed yaml values: string scalars and sequence items
passed the `plainValueOk` check. -/
def yvalOk : YVal → Prop
  | .vint _ => True
  | .vstr s => plainValueOk s = true
  | .vlist items => ∀ i ∈ items, plainValueOk i = true

/-- Invariant on the pending block-sequence state. -/
def pendOk : Option (List Char × List (List Char)) → Prop
  | none => True
  | some (_, items) => ∀ i ∈ items, plainValueOk i = true

/-! ## Records reachable through create and update -/

/-- The in-memory records that the operations of the store construct: a
record returned by `create_new_idea`, or the result of the field
mutations of `update_idea` applied to a reachable record at a clock
instant no earlier than the one that produced it (the clock never runs
backwards).  The index is the clock value of the step that produced
the record. -/
inductive ReachableIdea : Int → Idea → Prop where
  | create (s : Store) (now : Int) (title : String) (tags : List String)
      (content : String) :
      ReachableIdea now (createNewIdea s now title tags content).1
  | update {t : Int} {r : Idea} (hr : ReachableIdea t r) {t2 : Int} (ht : t ≤ t2)
      (title : Option String) (tags : Option (List String))
      (content : Option String) :
      ReachableIdea t2 (applyUpdate r title tags content t2)

/-! ## Lemmas: occurrences of the `---` delimiter -/

theorem breakOnDDD_nil : breakOnDDD [] = none := rfl

theorem breakOnDDD_cons_ne {c : Char} (h : c ≠ '-') (l : List Char) :
    breakOnDDD (c :: l) = (breakOnDDD l).map (fun p => (c :: p.1, p.2)) := by
  simp [breakOnDDD, h]

theorem breakOnDDD_of_no_dash {l : List Char} (h : ∀ c ∈ l, c ≠ '-') :
    breakOnDDD l = none := by
  induction l with
  | nil => rfl
  | cons c rest ih =>
    rw [breakOnDDD_cons_ne (h c (by simp)) rest]
    rw [ih (fun x hx => h x (by simp [hx]))]
    rfl

theorem breakOnDDD_append_of_head {xs ys : List Char}
    (hx : breakOnDDD xs = none) (hy : breakOnDDD ys = none)
    (hh : ys.head? ≠ some '-') : breakOnDDD (xs ++ ys) = none := by
  induction xs with
  | nil => simpa using hy
  | cons c rest ih =>
    rw [breakOnDDD] at hx
    by_cases hc : c = '-' ∧ rest.take 2 = ['-', '-']
    · simp [hc] at hx
    · simp only [if_neg hc, Option.map_eq_none'] at hx
      have hrest := ih hx
      rw [List.cons_append, breakOnDDD]
      have hcond : ¬(c = '-' ∧ (rest ++ ys).take 2 = ['-', '-']) := by
        rintro ⟨rfl, htake⟩
        match rest, hc, htake with
        | [], hc, htake =>
          cases ys with
          | nil => simp at htake
          | cons y ys =>
            simp at htake
            exact hh (by simp [htake.1])
        | [d], hc, htake =>
          cases ys with
          | nil => simp at htake
          | cons y ys =>
            simp at htake
            exact hh (by simp [htake.2])
        | d1 :: d2 :: rest, hc, htake =>
          simp at htake
          exact hc ⟨rfl, by simp [htake.1, htake.2]⟩
      rw [if_neg hcond, hrest]
      rfl

theorem breakOnDDD_append_of_last {xs ys : List Char}
    (hx : breakOnDDD xs = none) (hy : breakOnDDD ys = none)
    (hl : xs.getLast? ≠ some '-') : breakOnDDD (xs ++ ys) = none := by
  induction xs with
  | nil => simpa using hy
  | cons c rest ih =>
    rw [breakOnDDD] at hx
    by_cases hc : c = '-' ∧ rest.take 2 = ['-', '-']
    · simp [hc] at hx
    · simp only [if_neg hc, Option.map_eq_none'] at hx
      rw [List.cons_append, breakOnDDD]
      have hcond : ¬(c = '-' ∧ (rest ++ ys).take 2 = ['-', '-']) := by
        rintro ⟨rfl, htake⟩
        match rest, hc, hx, hl, htake with
        | [], hc, hx, hl, htake =>
          exact hl (by simp)
        | [d], hc, hx, hl, htake =>
          cases ys with
          | nil => simp at htake
          | cons y ys =>
            simp at htake
            exact hl (by simp [htake.1])
        | d1 :: d2 :: rest, hc, hx, hl, htake =>
          simp at htake
          exact hc ⟨rfl, by simp [htake.1, htake.2]⟩
      rw [if_neg hcond]
      cases rest with
      | nil => simpa using hy
      | cons d rest' =>
        have hl' : (d :: rest').getLast? ≠ some '-' := by
          simpa [List.getLast?_cons_cons] using hl
        rw [ih hx hl']
        rfl

theorem breakOnDDD_marker {l ys : List Char}
    (h : breakOnDDD l = none) (hl : l.getLast? ≠ some '-') :
    breakOnDDD (l ++ '-' :: '-' :: '-' :: ys) = some (l, ys) := by
  induction l with
  | nil => simp [breakOnDDD]
  | cons c rest ih =>
    rw [breakOnDDD] at h
    by_cases hc : c = '-' ∧ rest.take 2 = ['-', '-']
    · simp [hc] at h
    · simp only [if_neg hc, Option.map_eq_none'] at h
      rw [List.cons_append, breakOnDDD]
      have hcond : ¬(c = '-' ∧ (rest ++ '-' :: '-' :: '-' :: ys).take 2 = ['-', '-']) := by
        rintro ⟨rfl, htake⟩
        match rest, hc, h, hl, htake with
        | [], hc, h, hl, htake =>
          exact hl (by simp)
        | [d], hc, h, hl, htake =>
          simp at htake
          exact hl (by simp [htake])
        | d1 :: d2 :: rest, hc, h, hl, htake =>
          simp at htake
          exact hc ⟨rfl, by simp [htake.1, htake.2]⟩
      rw [if_neg hcond]
      cases rest with
      | nil =>
        simp [breakOnDDD]
      | cons d rest' =>
        have hl' : (d :: rest').getLast? ≠ some '-' := by
          simpa [List.getLast?_cons_cons] using hl
        rw [ih h hl']
        rfl

theorem breakOnDDD_interCh {ls : List (List Char)}
    (h : ∀ l ∈ ls, breakOnDDD l = none) :
    breakOnDDD (interCh '\n' ls) = none := by
  induction ls with
  | nil => rfl
  | cons l ls ih =>
    cases ls with
    | nil => exact h l (by simp)
    | cons l2 ls' =>
      rw [interCh]
      have hmid : breakOnDDD ('\n' :: interCh '\n' (l2 :: ls')) = none := by
        rw [breakOnDDD_cons_ne (by decide) _]
        rw [ih (fun x hx => h x (by simp at hx ⊢; tauto))]
        rfl
      exact breakOnDDD_append_of_head (h l (by simp)) hmid (by simp)

/-! ## Lemmas: line splitting and joining -/

theorem splitOnCh_ne_nil (sep : Char) (l : List Char) : splitOnCh sep l ≠ [] := by
  induction l with
  | nil => simp [splitOnCh]
  | cons c rest ih =>
    rw [splitOnCh]
    by_cases hc : c = sep
    · simp [hc]
    · rw [if_neg hc]
      match hsp : splitOnCh sep rest with
      | [] => simp
      | g :: gs => simp

theorem splitOnCh_cons_sep (sep : Char) (l : List Char) :
    splitOnCh sep (sep :: l) = [] :: splitOnCh sep l := by
  simp [splitOnCh]

theorem splitOnCh_cons_ne {sep c : Char} (h : c ≠ sep) (l : List Char) :
    splitOnCh sep (c :: l) =
      (c :: (splitOnCh sep l).headD []) :: (splitOnCh sep l).tail := by
  rw [splitOnCh, if_neg h]
  match hsp : splitOnCh sep l, splitOnCh_ne_nil sep l with
  | g :: gs, _ => simp

theorem splitOnCh_append_sep (sep : Char) (l : List Char) :
    splitOnCh sep (l ++ [sep]) = splitOnCh sep l ++ [[]] := by
  induction l with
  | nil => simp [splitOnCh]
  | cons c rest ih =>
    by_cases hc : c = sep
    · subst hc
      rw [List.cons_append, splitOnCh_cons_sep, splitOnCh_cons_sep, ih]
      rfl
    · rw [List.cons_append, splitOnCh_cons_ne hc, splitOnCh_cons_ne hc, ih]
      match hsp : splitOnCh sep rest, splitOnCh_ne_nil sep rest with
      | g :: gs, _ => simp

theorem splitOnCh_interCh {sep : Char} {ls : List (List Char)}
    (h : ∀ l ∈ ls, sep ∉ l) (hne : ls ≠ []) :
    splitOnCh sep (interCh sep ls) = ls := by
  induction ls with
  | nil => exact absurd rfl hne
  | cons l ls ih =>
    cases ls with
    | nil =>
      rw [interCh]
      have hl : sep ∉ l := h l (by simp)
      clear ih hne h
      induction l with
      | nil => rfl
      | cons c rest ihl =>
        have hc : c ≠ sep := by
          intro hcc
          exact hl (by simp [hcc])
        rw [splitOnCh_cons_ne hc, ihl (by intro hm; exact hl (by simp [hm]))]
        simp
    | cons l2 ls' =>
      rw [interCh]
      have hrest : splitOnCh sep (sep :: interCh sep (l2 :: ls')) =
          [] :: (l2 :: ls') := by
        rw [splitOnCh_cons_sep, ih (fun x hx => h x (by simp at hx ⊢; tauto)) (by simp)]
      have hl : sep ∉ l := h l (by simp)
      clear ih hne h
      induction l with
      | nil => simpa using hrest
      | cons c rest ihl =>
        have hc : c ≠ sep := by
          intro hcc
          exact hl (by simp [hcc])
        rw [List.cons_append, splitOnCh_cons_ne hc,
          ihl (by intro hm; exact hl (by simp [hm]))]
        simp

/-! ## Lemmas: whitespace trimming -/

theorem dropWhile_head?_not {p : Char → Bool} {l : List Char} {c : Char}
    (h : (l.dropWhile p).head? = some c) : p c = false := by
  induction l with
  | nil => simp [List.dropWhile] at h
  | cons d rest ih =>
    rw [List.dropWhile] at h
    by_cases hd : p d
    · exact ih (by simpa [hd] using h)
    · simp only [hd] at h
      simp at h
      rw [← h]
      simpa using hd

theorem dropWhile_of_head_not {p : Char → Bool} {l : List Char}
    (h : match l.head? with | some c => p c = false | none => True) :
    l.dropWhile p = l := by
  cases l with
  | nil => rfl
  | cons c rest => simp_all [List.dropWhile]

theorem dropWhile_getLast? {p : Char → Bool} {l : List Char}
    (h : l.dropWhile p ≠ []) : (l.dropWhile p).getLast? = l.getLast? := by
  induction l with
  | nil => simp at h
  | cons c rest ih =>
    rw [List.dropWhile] at h ⊢
    by_cases hc : p c
    · simp only [hc] at h ⊢
      rw [ih h]
      cases rest with
      | nil => simp [List.dropWhile] at h
      | cons d rest' => simp [List.getLast?_cons_cons]
    · simp [hc]

theorem trimChars_head? {l : List Char} {c : Char}
    (h : (trimChars l).head? = some c) : c.isWhitespace = false := by
  rw [trimChars] at h
  rw [List.head?_reverse] at h
  set z := (l.dropWhile Char.isWhitespace).reverse.dropWhile Char.isWhitespace with hz
  have hzne : z ≠ [] := by
    intro hznil
    rw [hznil] at h
    simp at h
  rw [dropWhile_getLast? hzne] at h
  rw [List.getLast?_reverse] at h
  exact dropWhile_head?_not h

theorem trimChars_getLast? {l : List Char} {c : Char}
    (h : (trimChars l).getLast? = some c) : c.isWhitespace = false := by
  rw [trimChars] at h
  rw [List.getLast?_reverse] at h
  exact dropWhile_head?_not h

theorem trimChars_of_clean {l : List Char}
    (hh : match l.head? with | some c => c.isWhitespace = false | none => True)
    (hl : match l.getLast? with | some c => c.isWhitespace = false | none => True) :
    trimChars l = l := by
  rw [trimChars, dropWhile_of_head_not hh, dropWhile_of_head_not ?_, List.reverse_reverse]
  rw [List.head?_reverse]
  exact hl

theorem trimChars_idem (l : List Char) : trimChars (trimChars l) = trimChars l := by
  apply trimChars_of_clean
  · match h : (trimChars l).head? with
    | some c => exact trimChars_head? h
    | none => trivial
  · match h : (trimChars l).getLast? with
    | some c => exact trimChars_getLast? h
    | none => trivial

theorem trimChars_cons_ws {c : Char} (hc : c.isWhitespace = true) (l : List Char) :
    trimChars (c :: l) = trimChars l := by
  rw [trimChars, trimChars, List.dropWhile_cons_of_pos hc]

/-! ## Lemmas: decimal representation -/

theorem natReprAux_fuel {f n : Nat} (h : n < f) : natReprAux f n = natRepr n := by
  induction n using Nat.strong_induction_on generalizing f with
  | _ n ih =>
    match f, h with
    | f + 1, h =>
      rw [natRepr, natReprAux, natReprAux]
      by_cases h10 : n < 10
      · simp [h10]
      · rw [if_neg h10, if_neg h10]
        have hlt : n / 10 < n := Nat.div_lt_self (by omega) (by omega)
        rw [ih (n / 10) hlt (by omega), ih (n / 10) hlt (by omega)]

theorem natRepr_unfold (n : Nat) :
    natRepr n = if n < 10 then [digitCharOf n]
      else natRepr (n / 10) ++ [digitCharOf (n % 10)] := by
  rw [natRepr, natReprAux]
  by_cases h10 : n < 10
  · simp [h10]
  · rw [if_neg h10, if_neg h10,
      natReprAux_fuel (Nat.lt_of_lt_of_le (Nat.div_lt_self (by omega) (by omega)) (by omega))]

theorem digitCharOf_isDigit {d : Nat} (h : d < 10) :
    (digitCharOf d).isDigit = true := by
  interval_cases d <;> decide

theorem natRepr_all_digit (n : Nat) : ∀ c ∈ natRepr n, c.isDigit = true := by
  induction n using Nat.strong_induction_on with
  | _ n ih =>
    rw [natRepr_unfold]
    by_cases h10 : n < 10
    · simp only [if_pos h10]
      intro c hc
      simp at hc
      rw [hc]
      exact digitCharOf_isDigit h10
    · simp only [if_neg h10]
      intro c hc
      rw [List.mem_append] at hc
      rcases hc with hc | hc
      · exact ih (n / 10) (Nat.div_lt_self (by omega) (by omega)) c hc
      · simp at hc
        rw [hc]
        exact digitCharOf_isDigit (Nat.mod_lt _ (by omega))

theorem natRepr_ne_nil (n : Nat) : natRepr n ≠ [] := by
  rw [natRepr_unfold]
  by_cases h10 : n < 10
  · simp [h10]
  · simp [h10]

theorem natOfDigits_append_one (a : List Char) (c : Char) :
    natOfDigits (a ++ [c]) = 10 * natOfDigits a + digitValOf c := by
  rw [natOfDigits, natOfDigits, List.foldl_append]
  simp [Nat.mul_comm]

theorem digitValOf_digitCharOf {d : Nat} (h : d < 10) :
    digitValOf (digitCharOf d) = d := by
  interval_cases d <;> decide

theorem natOfDigits_natRepr (n : Nat) : natOfDigits (natRepr n) = n := by
  induction n using Nat.strong_induction_on with
  | _ n ih =>
    rw [natRepr_unfold]
    by_cases h10 : n < 10
    · simp only [if_pos h10]
      rw [natOfDigits]
      simp [digitValOf_digitCharOf h10]
    · simp only [if_neg h10]
      rw [natOfDigits_append_one,
        ih (n / 10) (Nat.div_lt_self (by omega) (by omega)),
        digitValOf_digitCharOf (Nat.mod_lt _ (by omega))]
      omega

theorem digitCharOf_ne_zero {d : Nat} (h1 : 0 < d) (h2 : d < 10) :
    digitCharOf d ≠ '0' := by
  interval_cases d <;> decide

theorem natRepr_head_ne_zero {n : Nat} (h : 0 < n) :
    (natRepr n).head? ≠ some '0' := by
  induction n using Nat.strong_induction_on with
  | _ n ih =>
    rw [natRepr_unfold]
    by_cases h10 : n < 10
    · simp only [if_pos h10]
      simp [digitCharOf_ne_zero h h10]
    · simp only [if_neg h10]
      rw [List.head?_append_of_ne_nil _ (natRepr_ne_nil _)]
      exact ih (n / 10) (Nat.div_lt_self (by omega) (by omega))
        (Nat.div_pos (by omega) (by omega))

theorem noLeadZero_natRepr (n : Nat) : noLeadZero (natRepr n) = true := by
  by_cases h : n = 0
  · subst h
    decide
  · rw [noLeadZero]
    simp [natRepr_head_ne_zero (by omega : 0 < n)]

theorem isDigit_ne_dash {c : Char} (h : c.isDigit = true) : c ≠ '-' := by
  intro hc
  rw [hc] at h
  simp [Char.isDigit] at h

theorem intShape_intRepr (i : Int) : intShape (intRepr i) = true := by
  rw [intRepr]
  by_cases hneg : i < 0
  · rw [if_pos hneg, intShape]
    have hne := natRepr_ne_nil i.natAbs
    have hdig := natRepr_all_digit i.natAbs
    simp only [Bool.and_eq_true]
    refine ⟨⟨by simpa using hne, ?_⟩, noLeadZero_natRepr _⟩
    rw [List.all_eq_true]
    exact fun c hc => hdig c hc
  · rw [if_neg hneg]
    have hne := natRepr_ne_nil i.toNat
    have hdig := natRepr_all_digit i.toNat
    match hR : natRepr i.toNat, hne with
    | c :: rest, _ =>
      have hc : c.isDigit = true := by
        have := hdig c
        rw [hR] at this
        exact this (by simp)
      rw [intShape.eq_def]
      split
      next rest2 heq =>
        simp at heq
        exact absurd heq.1 (isDigit_ne_dash hc)
      next =>
        simp only [Bool.and_eq_true]
        refine ⟨⟨by simp, ?_⟩, ?_⟩
        · rw [List.all_eq_true]
          intro x hx
          have := hdig x
          rw [hR] at this
          exact this hx
        · have := noLeadZero_natRepr i.toNat
          rw [hR] at this
          exact this

theorem parseIntChars_cons_digit {c : Char} (h : c.isDigit = true)
    (rest : List Char) :
    parseIntChars (c :: rest) = (natOfDigits (c :: rest) : Int) := by
  rw [parseIntChars.eq_def]
  split
  next rest2 heq =>
    simp at heq
    exact absurd heq.1 (isDigit_ne_dash h)
  next => rfl

theorem parseIntChars_intRepr (i : Int) : parseIntChars (intRepr i) = i := by
  rw [intRepr]
  by_cases hneg : i < 0
  · rw [if_pos hneg, parseIntChars, natOfDigits_natRepr]
    omega
  · rw [if_neg hneg]
    have hne := natRepr_ne_nil i.toNat
    match hR : natRepr i.toNat, hne with
    | c :: rest, _ =>
      have hc : c.isDigit = true := by
        have := natRepr_all_digit i.toNat c
        rw [hR] at this
        exact this (by simp)
      rw [parseIntChars_cons_digit hc rest]
      have : natOfDigits (c :: rest) = i.toNat := by
        rw [← hR, natOfDigits_natRepr]
      rw [this]
      omega

/-! ## Lemmas: the plain-scalar fragment -/

theorem isAlpha_not_ws {c : Char} (h : c.isAlpha = true) : c.isWhitespace = false := by
  by_contra hws
  simp only [Bool.not_eq_false] at hws
  simp only [Char.isWhitespace, Bool.or_eq_true, decide_eq_true_eq] at hws
  rcases hws with ((h1 | h1) | h1) | h1 <;> (subst h1; exact absurd h (by decide))

theorem plainChar_not_ws {c : Char} (h : plainChar c = true) (hsp : c ≠ ' ') :
    c.isWhitespace = false := by
  by_contra hws
  simp only [Bool.not_eq_false] at hws
  simp only [Char.isWhitespace, Bool.or_eq_true, decide_eq_true_eq] at hws
  rcases hws with ((h1 | h1) | h1) | h1
  · exact hsp h1
  all_goals (subst h1; exact absurd h (by decide))

theorem trimChars_of_plainValueOk {v : List Char} (h : plainValueOk v = true) :
    trimChars v = v := by
  rw [plainValueOk] at h
  simp only [Bool.and_eq_true] at h
  obtain ⟨⟨⟨⟨⟨⟨⟨-, hall⟩, hhead⟩, hlast⟩, -⟩, -⟩, -⟩, -⟩ := h
  apply trimChars_of_clean
  · match hh : v.head? with
    | some c =>
      have : c.isAlpha = true := by
        rw [hh] at hhead
        simpa using hhead
      exact isAlpha_not_ws this
    | none => trivial
  · match hl : v.getLast? with
    | some c =>
      have hc : plainChar c = true := by
        rw [List.all_eq_true] at hall
        exact hall c (List.mem_of_getLast?_eq_some hl)
      have hcsp : c ≠ ' ' := by
        rw [hl] at hlast
        simp only [decide_eq_true_eq] at hlast
        intro hc'
        exact hlast (by rw [hc'])
      exact plainChar_not_ws hc hcsp
    | none => trivial

theorem intRepr_head_not_bracket (i : Int) : intRepr i ≠ "[]".data := by
  intro h
  rw [intRepr] at h
  by_cases hneg : i < 0
  · rw [if_pos hneg] at h
    have := congrArg List.head? h
    simp at this
  · rw [if_neg hneg] at h
    have hne := natRepr_ne_nil i.toNat
    match hR : natRepr i.toNat, hne with
    | c :: rest, _ =>
      rw [hR] at h
      have hc : c.isDigit = true := by
        have := natRepr_all_digit i.toNat c
        rw [hR] at this
        exact this (by simp)
      have : c = '[' := by
        have := congrArg List.head? h
        simpa using this
      rw [this] at hc
      exact absurd hc (by decide)

theorem resolveScalar_intRepr (i : Int) :
    resolveScalar (intRepr i) = .ok (.vint i) := by
  rw [resolveScalar, if_neg (intRepr_head_not_bracket i), if_pos (intShape_intRepr i),
    parseIntChars_intRepr]

theorem resolveScalar_plain {v : List Char} (h : plainValueOk v = true) :
    resolveScalar v = .ok (.vstr v) := by
  have h' := h
  rw [plainValueOk] at h'
  simp only [Bool.and_eq_true] at h'
  obtain ⟨⟨⟨-, hshape⟩, hbr⟩, -⟩ := h'
  rw [resolveScalar, if_neg ?_, if_neg ?_, if_pos h]
  · simp only [Bool.not_eq_true'] at hshape
    simp [hshape]
  · simpa using hbr

/-! ## Lemmas: one parsing step per line shape -/

theorem procLines_blank (acc : List (List Char × YVal))
    (pend : Option (List Char × List (List Char))) (rest : List (List Char)) :
    procLines acc pend ([] :: rest) = procLines acc pend rest := rfl

theorem procLines_kv_id (acc : List (List Char × YVal))
    (pend : Option (List Char × List (List Char))) (v : List Char) (yv : YVal)
    (rest : List (List Char)) (hres : resolveScalar (trimChars v) = .ok yv) :
    procLines acc pend (('i' :: 'd' :: ':' :: ' ' :: v) :: rest) =
      procLines (commitPending acc pend ++ [("id".data, yv)]) none rest := by
  have hws : ('i' :: 'd' :: ':' :: ' ' :: v).all Char.isWhitespace = false := rfl
  have htk : ('i' :: 'd' :: ':' :: ' ' :: v).take 2 = ['i', 'd'] := rfl
  have hcs : breakOnCS ('i' :: 'd' :: ':' :: ' ' :: v) = some ("id".data, v) := rfl
  simp only [procLines, hws, htk, hcs, hres, Bool.false_eq_true, if_false,
    reduceCtorEq, if_neg (by decide : ¬(['i', 'd'] = ['-', ' ']))]

theorem procLines_kv_modified (acc : List (List Char × YVal))
    (pend : Option (List Char × List (List Char))) (v : List Char) (yv : YVal)
    (rest : List (List Char)) (hres : resolveScalar (trimChars v) = .ok yv) :
    procLines acc pend
      (('m' :: 'o' :: 'd' :: 'i' :: 'f' :: 'i' :: 'e' :: 'd' :: ':' :: ' ' :: v) :: rest) =
      procLines (commitPending acc pend ++ [("modified".data, yv)]) none rest := by
  have hws : ('m' :: 'o' :: 'd' :: 'i' :: 'f' :: 'i' :: 'e' :: 'd' :: ':' :: ' ' :: v).all
      Char.isWhitespace = false := rfl
  have htk : ('m' :: 'o' :: 'd' :: 'i' :: 'f' :: 'i' :: 'e' :: 'd' :: ':' :: ' ' :: v).take 2
      = ['m', 'o'] := rfl
  have hcs : breakOnCS ('m' :: 'o' :: 'd' :: 'i' :: 'f' :: 'i' :: 'e' :: 'd' :: ':' :: ' ' :: v)
      = some ("modified".data, v) := rfl
  simp only [procLines, hws, htk, hcs, hres, Bool.false_eq_true, if_false,
    reduceCtorEq, if_neg (by decide : ¬(['m', 'o'] = ['-', ' ']))]

theorem procLines_kv_title (acc : List (List Char × YVal))
    (pend : Option (List Char × List (List Char))) (v : List Char) (yv : YVal)
    (rest : List (List Char)) (hres : resolveScalar (trimChars v) = .ok yv) :
    procLines acc pend (('t' :: 'i' :: 't' :: 'l' :: 'e' :: ':' :: ' ' :: v) :: rest) =
      procLines (commitPending acc pend ++ [("title".data, yv)]) none rest := by
  have hws : ('t' :: 'i' :: 't' :: 'l' :: 'e' :: ':' :: ' ' :: v).all
      Char.isWhitespace = false := rfl
  have htk : ('t' :: 'i' :: 't' :: 'l' :: 'e' :: ':' :: ' ' :: v).take 2 = ['t', 'i'] := rfl
  have hcs : breakOnCS ('t' :: 'i' :: 't' :: 'l' :: 'e' :: ':' :: ' ' :: v)
      = some ("title".data, v) := rfl
  simp only [procLines, hws, htk, hcs, hres, Bool.false_eq_true, if_false,
    reduceCtorEq, if_neg (by decide : ¬(['t', 'i'] = ['-', ' ']))]

theorem procLines_tags_empty (acc : List (List Char × YVal))
    (pend : Option (List Char × List (List Char))) (rest : List (List Char)) :
    procLines acc pend (['t', 'a', 'g', 's', ':', ' ', '[', ']'] :: rest) =
      procLines (commitPending acc pend ++ [("tags".data, .vlist [])]) none rest := by
  have hres : resolveScalar (trimChars "[]".data) = .ok (.vlist []) := rfl
  show procLines acc pend (('t' :: 'a' :: 'g' :: 's' :: ':' :: ' ' :: "[]".data) :: rest) = _
  have hws : ('t' :: 'a' :: 'g' :: 's' :: ':' :: ' ' :: "[]".data).all
      Char.isWhitespace = false := rfl
  have htk : ('t' :: 'a' :: 'g' :: 's' :: ':' :: ' ' :: "[]".data).take 2 = ['t', 'a'] := rfl
  have hcs : breakOnCS ('t' :: 'a' :: 'g' :: 's' :: ':' :: ' ' :: "[]".data)
      = some ("tags".data, "[]".data) := rfl
  simp only [procLines, hws, htk, hcs, hres, Bool.false_eq_true, if_false,
    reduceCtorEq, if_neg (by decide : ¬(['t', 'a'] = ['-', ' ']))]

theorem procLines_tags_key (acc : List (List Char × YVal))
    (pend : Option (List Char × List (List Char))) (rest : List (List Char)) :
    procLines acc pend (['t', 'a', 'g', 's', ':'] :: rest) =
      procLines (commitPending acc pend) (some ("tags".data, [])) rest := rfl

theorem procLines_item (acc : List (List Char × YVal)) (k : List Char)
    (items : List (List Char)) (t : List Char) (rest : List (List Char))
    (hok : plainValueOk t = true) :
    procLines acc (some (k, items)) (('-' :: ' ' :: t) :: rest) =
      procLines acc (some (k, items ++ [t])) rest := by
  have hws : ('-' :: ' ' :: t).all Char.isWhitespace = false := rfl
  have htk : ('-' :: ' ' :: t).take 2 = ['-', ' '] := rfl
  have htr : trimChars (('-' :: ' ' :: t).drop 2) = t := by
    rw [(rfl : ('-' :: ' ' :: t).drop 2 = t)]
    exact trimChars_of_plainValueOk hok
  simp only [procLines, hws, htk, htr, hok, Bool.false_eq_true, if_false, if_true]

theorem procLines_items (acc : List (List Char × YVal)) (k : List Char)
    (tags : List String) (hG : ∀ t ∈ tags, plainValueOk t.data = true)
    (items : List (List Char)) (rest : List (List Char)) :
    procLines acc (some (k, items)) (tags.map (fun t => '-' :: ' ' :: t.data) ++ rest) =
      procLines acc (some (k, items ++ tags.map (fun t => t.data))) rest := by
  induction tags generalizing items with
  | nil => simp
  | cons t ts ih =>
    rw [List.map_cons, List.cons_append, procLines_item _ _ _ _ _ (hG t (by simp)),
      ih (fun x hx => hG x (by simp [hx])) (items ++ [t.data])]
    simp

/-! ## Lemmas: characters of the serialized metadata lines -/

theorem head?_mem {l : List Char} {c : Char} (h : l.head? = some c) : c ∈ l := by
  cases l with
  | nil => simp at h
  | cons a as =>
    simp at h
    simp [h]

theorem digit_not_ws {c : Char} (h : c.isDigit = true) : c.isWhitespace = false := by
  by_contra hws
  simp only [Bool.not_eq_false] at hws
  simp only [Char.isWhitespace, Bool.or_eq_true, decide_eq_true_eq] at hws
  rcases hws with ((h1 | h1) | h1) | h1 <;> (subst h1; exact absurd h (by decide))

theorem intRepr_mem {i : Int} {c : Char} (h : c ∈ intRepr i) :
    c.isDigit = true ∨ c = '-' := by
  rw [intRepr] at h
  by_cases hneg : i < 0
  · rw [if_pos hneg] at h
    rcases List.mem_cons.mp h with h1 | h1
    · exact Or.inr h1
    · exact Or.inl (natRepr_all_digit _ c h1)
  · rw [if_neg hneg] at h
    exact Or.inl (natRepr_all_digit _ c h)

theorem trimChars_intRepr (i : Int) : trimChars (intRepr i) = intRepr i := by
  apply trimChars_of_clean
  · match hh : (intRepr i).head? with
    | some c =>
      rcases intRepr_mem (head?_mem hh) with hd | hd
      · exact digit_not_ws hd
      · rw [hd]
        decide
    | none => trivial
  · match hl : (intRepr i).getLast? with
    | some c =>
      rcases intRepr_mem (List.mem_of_getLast?_eq_some hl) with hd | hd
      · exact digit_not_ws hd
      · -- the last character of `str(i)` is always a digit, but the
        -- dash case is harmless for whitespace anyway
        rw [hd]
        decide
    | none => trivial

theorem plainValueOk_noDDD {v : List Char} (h : plainValueOk v = true) :
    breakOnDDD v = none := by
  rw [plainValueOk] at h
  simp only [Bool.and_eq_true] at h
  have := h.2
  simpa using this

theorem plainValueOk_all_plain {v : List Char} (h : plainValueOk v = true) :
    v.all plainChar = true := by
  rw [plainValueOk] at h
  simp only [Bool.and_eq_true] at h
  exact h.1.1.1.1.1.1.2

theorem no_nl_plain {v : List Char} (h : plainValueOk v = true) :
    ('\n' : Char) ∉ v := by
  intro hm
  have := plainValueOk_all_plain h
  rw [List.all_eq_true] at this
  exact absurd (this _ hm) (by decide)

theorem intRepr_noDDD (i : Int) : breakOnDDD (intRepr i) = none := by
  rw [intRepr]
  by_cases hneg : i < 0
  · rw [if_pos hneg, breakOnDDD]
    have hdig := natRepr_all_digit i.natAbs
    have hcond : ¬('-' = '-' ∧ (natRepr i.natAbs).take 2 = ['-', '-']) := by
      rintro ⟨-, htake⟩
      have : ('-' : Char) ∈ (natRepr i.natAbs).take 2 := by
        rw [htake]
        simp
      have hmem : ('-' : Char) ∈ natRepr i.natAbs := List.mem_of_mem_take this
      exact absurd (hdig _ hmem) (by decide)
    rw [if_neg hcond,
      breakOnDDD_of_no_dash (fun c hc => isDigit_ne_dash (natRepr_all_digit _ c hc))]
    rfl
  · rw [if_neg hneg]
    exact breakOnDDD_of_no_dash (fun c hc => isDigit_ne_dash (natRepr_all_digit _ c hc))

theorem breakOnDDD_item {t : List Char} (h : breakOnDDD t = none) :
    breakOnDDD ('-' :: ' ' :: t) = none := by
  rw [breakOnDDD]
  have hcond : ¬('-' = '-' ∧ (' ' :: t).take 2 = ['-', '-']) := by
    rintro ⟨-, htake⟩
    have := congrArg List.head? htake
    simp at this
  rw [if_neg hcond, breakOnDDD_cons_ne (by decide) t, h]
  rfl

/-! ## Lemmas: the serialized metadata block parses back -/

theorem metaLines_ne_nil (r : Idea) : metaLines r ≠ [] := by
  rw [metaLines]
  simp

theorem metaLines_no_nl (r : Idea) (hT : safeField r.title = true)
    (hG : ∀ t ∈ r.tags, safeField t = true) :
    ∀ l ∈ metaLines r, ('\n' : Char) ∉ l := by
  intro l hl
  rw [metaLines] at hl
  simp only [List.mem_cons, List.mem_append, List.mem_singleton] at hl
  have hconc : ∀ (p : List Char), ('\n' : Char) ∉ p → ∀ i : Int,
      ('\n' : Char) ∉ p ++ intRepr i := by
    intro p hp i hm
    rcases List.mem_append.mp hm with h | h
    · exact hp h
    · rcases intRepr_mem h with hd | hd
      · exact absurd hd (by decide)
      · exact absurd hd (by decide)
  rcases hl with rfl | rfl | hl | rfl | h
  · exact hconc _ (by decide) _
  · exact hconc _ (by decide) _
  · by_cases htags : r.tags.isEmpty
    · rw [if_pos htags] at hl
      simp only [List.mem_singleton] at hl
      subst hl
      decide
    · rw [if_neg htags] at hl
      rcases List.mem_cons.mp hl with rfl | hl
      · decide
      · rcases List.mem_map.mp hl with ⟨t, ht, rfl⟩
        intro hm
        rcases List.mem_cons.mp hm with h | h
        · exact absurd h (by decide)
        · rcases List.mem_cons.mp h with h | h
          · exact absurd h (by decide)
          · exact no_nl_plain (hG t ht) h
  · intro hm
    rcases List.mem_append.mp hm with h | h
    · simp at h
    · exact no_nl_plain hT h
  · simp at h

theorem metaLines_noDDD (r : Idea) (hT : safeField r.title = true)
    (hG : ∀ t ∈ r.tags, safeField t = true) :
    ∀ l ∈ metaLines r, breakOnDDD l = none := by
  intro l hl
  rw [metaLines] at hl
  simp only [List.mem_cons, List.mem_append, List.mem_singleton] at hl
  rcases hl with rfl | rfl | hl | rfl | h
  · exact breakOnDDD_append_of_last (by decide) (intRepr_noDDD _) (by decide)
  · exact breakOnDDD_append_of_last (by decide) (intRepr_noDDD _) (by decide)
  · by_cases htags : r.tags.isEmpty
    · rw [if_pos htags] at hl
      simp only [List.mem_singleton] at hl
      subst hl
      decide
    · rw [if_neg htags] at hl
      rcases List.mem_cons.mp hl with rfl | hl
      · decide
      · rcases List.mem_map.mp hl with ⟨t, ht, rfl⟩
        exact breakOnDDD_item (plainValueOk_noDDD (hG t ht))
  · exact breakOnDDD_append_of_last (by decide) (plainValueOk_noDDD hT) (by decide)
  · simp at h

theorem parseMeta_metaChars (r : Idea) (hT : safeField r.title = true)
    (hG : ∀ t ∈ r.tags, safeField t = true) :
    parseMeta ('\n' :: metaChars r ++ ['\n']) =
      .ok [("id".data, .vint r.id), ("modified".data, .vint r.modified),
        ("tags".data, .vlist (r.tags.map (fun t => t.data))),
        ("title".data, .vstr r.title.data)] := by
  have hsplit : splitOnCh '\n' ('\n' :: metaChars r ++ ['\n'])
      = [] :: (metaLines r ++ [[]]) := by
    rw [List.cons_append, splitOnCh_cons_sep, metaChars, splitOnCh_append_sep,
      splitOnCh_interCh (metaLines_no_nl r hT hG) (metaLines_ne_nil r)]
  have hid : resolveScalar (trimChars (intRepr r.id)) = .ok (.vint r.id) := by
    rw [trimChars_intRepr]
    exact resolveScalar_intRepr r.id
  have hmod : resolveScalar (trimChars (intRepr r.modified)) = .ok (.vint r.modified) := by
    rw [trimChars_intRepr]
    exact resolveScalar_intRepr r.modified
  have htitle : resolveScalar (trimChars r.title.data) = .ok (.vstr r.title.data) := by
    rw [trimChars_of_plainValueOk hT]
    exact resolveScalar_plain hT
  rw [parseMeta, hsplit, procLines_blank, metaLines]
  by_cases htags : r.tags.isEmpty
  · have htagsnil : r.tags = [] := List.isEmpty_iff.mp htags
    rw [if_pos htags, htagsnil]
    simp only [List.cons_append, List.singleton_append, List.map_nil, List.nil_append]
    rw [procLines_kv_id _ _ _ _ _ hid, procLines_kv_modified _ _ _ _ _ hmod,
      procLines_tags_empty, procLines_kv_title _ _ _ _ _ htitle, procLines_blank]
    simp [procLines, commitPending]
  · rw [if_neg htags]
    simp only [List.cons_append, List.append_assoc, List.singleton_append, List.nil_append]
    rw [procLines_kv_id _ _ _ _ _ hid, procLines_kv_modified _ _ _ _ _ hmod,
      procLines_tags_key,
      procLines_items _ _ _ (fun t ht => hG t ht) _ _,
      procLines_kv_title _ _ _ _ _ htitle, procLines_blank]
    simp [procLines, commitPending]

theorem breakOnDDD_triple (l : List Char) :
    breakOnDDD ('-' :: '-' :: '-' :: l) = some ([], l) := rfl

theorem pySplit2_toMarkdown (r : Idea) (hT : safeField r.title = true)
    (hG : ∀ t ∈ r.tags, safeField t = true) :
    pySplit2 (toMarkdown r).data =
      some ([], '\n' :: metaChars r ++ ['\n'], '\n' :: '\n' :: r.content.data) := by
  have hMeta : breakOnDDD (metaChars r) = none :=
    breakOnDDD_interCh (metaLines_noDDD r hT hG)
  have hA : breakOnDDD ('\n' :: metaChars r ++ ['\n']) = none := by
    rw [List.cons_append, breakOnDDD_cons_ne (by decide),
      breakOnDDD_append_of_head hMeta (by decide) (by decide)]
    rfl
  have hLast : ('\n' :: metaChars r ++ ['\n']).getLast? ≠ some '-' := by
    rw [List.cons_append, ← List.cons_append, List.getLast?_concat]
    decide
  have hdata : (toMarkdown r).data =
      '-' :: '-' :: '-' :: ('\n' :: metaChars r ++ ['\n'] ++
        '-' :: '-' :: '-' :: ('\n' :: '\n' :: r.content.data)) := by
    rw [toMarkdown]
    simp
  have hb : breakOnDDD ('\n' :: metaChars r ++ ['\n'] ++
      '-' :: '-' :: '-' :: ('\n' :: '\n' :: r.content.data)) =
      some ('\n' :: metaChars r ++ ['\n'], '\n' :: '\n' :: r.content.data) := by
    have h := @breakOnDDD_marker ('\n' :: metaChars r ++ ['\n'])
      ('\n' :: '\n' :: r.content.data) hA hLast
    simpa using h
  rw [pySplit2, hdata, breakOnDDD_triple, Option.some_bind, hb, Option.map_some']

theorem map_mk_data (ts : List String) :
    (ts.map (fun t => t.data)).map (fun l => (⟨l⟩ : String)) = ts := by
  induction ts with
  | nil => rfl
  | cons t ts ih =>
    rw [List.map_cons, List.map_cons, ih]

theorem fromMarkdownText_eq_some {t : String} {p0 p1 p2 : List Char}
    (h : pySplit2 t.data = some (p0, p1, p2)) :
    fromMarkdownText t = buildFromParts p1 p2 := by
  rw [fromMarkdownText, h]

theorem buildFromParts_of_ok {m b : List Char} {kvs : List (List Char × YVal)}
    (h : parseMeta m = .ok kvs) : buildFromParts m b = buildIdeaFromKvs kvs b := by
  rw [buildFromParts, h]

theorem buildIdeaFromKvs_shape (i m : Int) (ts : List (List Char))
    (ti body : List Char) :
    buildIdeaFromKvs [("id".data, .vint i), ("modified".data, .vint m),
        ("tags".data, .vlist ts), ("title".data, .vstr ti)] body =
      .ok ⟨i, ⟨ti⟩, m, ts.map (fun l => (⟨l⟩ : String)), ⟨trimChars body⟩⟩ := rfl

/-- The serialize-then-deserialize round trip on the modelled yaml
fragment: parsing the output of `to_markdown` recovers the record with
its content stripped. -/
theorem fromMarkdown_toMarkdown (r : Idea) (hT : safeField r.title = true)
    (hG : ∀ t ∈ r.tags, safeField t = true) :
    fromMarkdownText (toMarkdown r) = .ok { r with content := trimString r.content } := by
  rw [fromMarkdownText_eq_some (pySplit2_toMarkdown r hT hG),
    buildFromParts_of_ok (parseMeta_metaChars r hT hG), buildIdeaFromKvs_shape,
    map_mk_data, trimChars_cons_ws (by decide), trimChars_cons_ws (by decide)]
  rfl

/-! ## Lemmas: every value the parser yields lies in the fragment -/

theorem commitPending_yvalOk {acc : List (List Char × YVal)}
    {pend : Option (List Char × List (List Char))}
    (hacc : ∀ kv ∈ acc, yvalOk kv.2) (hpend : pendOk pend) :
    ∀ kv ∈ commitPending acc pend, yvalOk kv.2 := by
  cases pend with
  | none => exact hacc
  | some p =>
    intro kv hkv
    rcases List.mem_append.mp hkv with hkv | hkv
    · exact hacc kv hkv
    · simp at hkv
      rw [hkv]
      exact hpend

theorem resolveScalar_yvalOk {v : List Char} {yv : YVal}
    (h : resolveScalar v = .ok yv) : yvalOk yv := by
  rw [resolveScalar] at h
  split at h
  · simp at h
    rw [← h]
    intro i hi
    simp at hi
  · split at h
    · simp at h
      rw [← h]
      trivial
    · split at h
      · simp at h
        rw [← h]
        show plainValueOk v = true
        assumption
      · simp at h

theorem procLines_cons_eq (acc : List (List Char × YVal))
    (pend : Option (List Char × List (List Char))) (l : List Char)
    (rest : List (List Char)) :
    procLines acc pend (l :: rest) =
      (if l.all Char.isWhitespace then procLines acc pend rest
       else if l.take 2 = ['-', ' '] then
         match pend with
         | some (k, items) =>
           let item := trimChars (l.drop 2)
           if plainValueOk item then procLines acc (some (k, items ++ [item])) rest
           else .error (.fmt "sequence item outside modelled yaml fragment")
         | none => .error (.fmt "sequence item without a key")
       else
         match breakOnCS l with
         | some (k, v) =>
           match resolveScalar (trimChars v) with
           | .ok yv => procLines (commitPending acc pend ++ [(k, yv)]) none rest
           | .error e => .error e
         | none =>
           if l.getLast? = some ':' then
             procLines (commitPending acc pend) (some (l.dropLast, [])) rest
           else .error (.fmt "line is not a mapping entry")) := rfl

theorem procLines_yvalOk : ∀ (ls : List (List Char))
    (acc : List (List Char × YVal)) (pend : Option (List Char × List (List Char)))
    (kvs : List (List Char × YVal)), procLines acc pend ls = .ok kvs →
    (∀ kv ∈ acc, yvalOk kv.2) → pendOk pend → ∀ kv ∈ kvs, yvalOk kv.2 := by
  intro ls
  induction ls with
  | nil =>
    intro acc pend kvs h hacc hpend
    rw [procLines] at h
    simp at h
    rw [← h]
    exact commitPending_yvalOk hacc hpend
  | cons l rest ih =>
    intro acc pend kvs h hacc hpend
    rw [procLines_cons_eq] at h
    split at h
    · exact ih _ _ _ h hacc hpend
    · split at h
      · -- block-sequence item line
        split at h
        · rename_i key items
          dsimp only at h
          split at h
          · rename_i hok
            refine ih _ _ _ h hacc ?_
            rw [pendOk]
            intro i hi
            rcases List.mem_append.mp hi with hi | hi
            · rw [pendOk] at hpend
              exact hpend i hi
            · simp at hi
              rw [hi]
              exact hok
          · simp at h
        · simp at h
      · split at h
        · -- mapping line with value
          split at h
          · next yv hres =>
            refine ih _ _ _ h ?_ (by rw [pendOk]; trivial)
            intro kv hkv
            rcases List.mem_append.mp hkv with hkv | hkv
            · exact commitPending_yvalOk hacc hpend kv hkv
            · simp at hkv
              rw [hkv]
              exact resolveScalar_yvalOk hres
          · simp at h
        · -- block-sequence opener
          split at h
          · refine ih _ _ _ h (commitPending_yvalOk hacc hpend) ?_
            rw [pendOk]
            intro i hi
            simp at hi
          · simp at h

theorem parseMeta_yvalOk {l : List Char} {kvs : List (List Char × YVal)}
    (h : parseMeta l = .ok kvs) : ∀ kv ∈ kvs, yvalOk kv.2 :=
  procLines_yvalOk _ [] none kvs h (by intro kv hkv; simp at hkv) (by rw [pendOk]; trivial)

theorem metaLookup_mem {kvs : List (List Char × YVal)} {k : List Char} {v : YVal}
    (h : metaLookup kvs k = some v) : ∃ kc, (kc, v) ∈ kvs := by
  rw [metaLookup] at h
  cases hf : kvs.find? (fun p => p.1 == k) with
  | none =>
    rw [hf] at h
    simp at h
  | some pr =>
    rw [hf] at h
    simp at h
    refine ⟨pr.1, ?_⟩
    have hm := List.mem_of_find?_eq_some hf
    rw [← h]
    simpa using hm

/-- Any record `from_markdown` returns has its title and tags in the
modelled plain-scalar fragment and its content already stripped: the
metadata block lies between the first two `---` of the file, and every
scalar the strict parser accepts satisfies `plainValueOk`. -/
theorem fromMarkdown_fields {t : String} {r : Idea}
    (h : fromMarkdownText t = .ok r) :
    safeField r.title = true ∧ (∀ tg ∈ r.tags, safeField tg = true) ∧
      trimString r.content = r.content := by
  rw [fromMarkdownText] at h
  split at h
  · simp at h
  · rw [buildFromParts] at h
    split at h
    · simp at h
    · rename_i kvs hkvs
      have hok := parseMeta_yvalOk hkvs
      rw [buildIdeaFromKvs] at h
      split at h
      · simp at h
      · split at h
        · simp at h
        · split at h
          · simp at h
          · rename_i titlev htitle
            split at h
            · simp at h
            · rename_i titleS htS
              split at h
              · simp at h
              · split at h
                · simp at h
                · split at h
                  · simp at h
                  · rename_i tagsL htags
                    simp only [Except.ok.injEq] at h
                    subst h
                    refine ⟨?_, ?_, ?_⟩
                    · -- title
                      obtain ⟨kc, hkc⟩ := metaLookup_mem htitle
                      have hy := hok _ hkc
                      cases titlev with
                      | vint n => simp [coerceTitle] at htS
                      | vlist items => simp [coerceTitle] at htS
                      | vstr sv =>
                        rw [coerceTitle] at htS
                        simp only [Except.ok.injEq] at htS
                        rw [yvalOk] at hy
                        subst htS
                        exact hy
                    · -- tags
                      intro tg htg
                      cases hl : metaLookup kvs "tags".data with
                      | none =>
                        rw [hl] at htags
                        rw [Option.getD, coerceTags] at htags
                        simp only [Except.ok.injEq] at htags
                        subst htags
                        simp at htg
                      | some tv =>
                        rw [hl] at htags
                        obtain ⟨kc, hkc⟩ := metaLookup_mem hl
                        have hy := hok _ hkc
                        cases tv with
                        | vint n => simp [coerceTags] at htags
                        | vstr sv => simp [coerceTags] at htags
                        | vlist items =>
                          rw [Option.getD, coerceTags] at htags
                          simp only [Except.ok.injEq] at htags
                          subst htags
                          rw [yvalOk] at hy
                          rcases List.mem_map.mp htg with ⟨i, hi, rfl⟩
                          exact hy i hi
                    · -- content
                      show trimString ⟨trimChars _⟩ = _
                      rw [trimString]
                      exact congrArg String.mk (trimChars_idem _)

theorem loadIdeaById_of_absent {s : Store} {id : Int}
    (h : lookupFile s (ideaFileName id) = none) : loadIdeaById s id = .ok none := by
  rw [loadIdeaById, h]

theorem loadIdeaById_of_file {s : Store} {id : Int} {txt : String}
    (h : lookupFile s (ideaFileName id) = some txt) :
    loadIdeaById s id = (fromMarkdownText txt).map some := by
  rw [loadIdeaById, h]

/-- Any record observable through `load_idea_by_id` has safe title and
tags and stripped content. -/
theorem loadIdea_fields {s : Store} {id : Int} {r : Idea}
    (h : loadIdeaById s id = .ok (some r)) :
    safeField r.title = true ∧ (∀ tg ∈ r.tags, safeField tg = true) ∧
      trimString r.content = r.content := by
  rw [loadIdeaById] at h
  split at h
  · simp at h
  · rename_i txt htxt
    cases hf : fromMarkdownText txt with
    | error e =>
      rw [hf] at h
      simp [Except.map] at h
    | ok r2 =>
      rw [hf] at h
      simp only [Except.map] at h
      simp at h
      rw [← h]
      exact fromMarkdown_fields hf

/-! ## Lemmas: the store -/

theorem lookupFile_setFile_self (s : Store) (n c : String) :
    lookupFile (setFile s n c) n = some c := by
  rw [lookupFile, setFile, List.find?_append]
  have h1 : (List.filter (fun f => !(f.1 == n)) s).find? (fun f => f.1 == n) = none := by
    rw [List.find?_eq_none]
    intro x hx
    have h2 := (List.mem_filter.mp hx).2
    simp only [Bool.not_eq_true'] at h2
    simp [h2]
  rw [h1]
  simp

theorem updateIdea_of_none {s : Store} {now id : Int} {t : Option String}
    {tg : Option (List String)} {c : Option String}
    (h : loadIdeaById s id = .ok none) :
    updateIdea s now id t tg c = .ok (false, s) := by
  rw [updateIdea, h]

theorem updateIdea_of_some {s : Store} {now id : Int} {r : Idea} {t : Option String}
    {tg : Option (List String)} {c : Option String}
    (h : loadIdeaById s id = .ok (some r)) :
    updateIdea s now id t tg c = .ok (true, saveIdea s (applyUpdate r t tg c now)) := by
  rw [updateIdea, h]

theorem loadIdeaById_saveIdea (s : Store) (r : Idea) :
    loadIdeaById (saveIdea s r) r.id = (fromMarkdownText (toMarkdown r)).map some := by
  rw [saveIdea, loadIdeaById_of_file (lookupFile_setFile_self s _ _)]

/-- Saving a record with safe title and tags and then loading it back
by its id yields the record with stripped content. -/
theorem loadIdeaById_saveIdea_ok (s : Store) (r : Idea) (hT : safeField r.title = true)
    (hG : ∀ t ∈ r.tags, safeField t = true) :
    loadIdeaById (saveIdea s r) r.id =
      .ok (some { r with content := trimString r.content }) := by
  rw [loadIdeaById_saveIdea, fromMarkdown_toMarkdown r hT hG]
  rfl

theorem loadAllIdeas_of_parses : ∀ (s : Store) (g : String × String → Idea),
    (∀ f ∈ s, strEndsWith f.1 ".md" = true → fromMarkdownText f.2 = .ok (g f)) →
    loadAllIdeas s = .ok ((s.filter (fun f => strEndsWith f.1 ".md")).map g) := by
  intro s g
  induction s with
  | nil =>
    intro h
    rfl
  | cons f rest ih =>
    intro h
    have ihh := ih (fun x hx hmd => h x (by simp [hx]) hmd)
    rw [loadAllIdeas] at ihh ⊢
    rw [List.filter_cons]
    by_cases hf : strEndsWith f.1 ".md"
    · have hfm := h f (by simp) hf
      simp only [hf, if_true, List.mapM_cons, hfm, ihh, List.map_cons]
      rfl
    · simp only [hf]
      simp only [Bool.false_eq_true, if_false]
      exact ihh

/-! ## Lemmas: directory creation -/

theorem makedirs_spec : ∀ (L : List (List String)) (fs : Fs),
    (∀ q ∈ L, q ∉ fs.files) →
    ∃ fs2, L.foldlM mkdirOne fs = .ok fs2 ∧ fs2.files = fs.files ∧
      ∀ x, x ∈ fs2.dirs ↔ (x ∈ fs.dirs ∨ x ∈ L) := by
  intro L
  induction L with
  | nil =>
    intro fs h
    exact ⟨fs, rfl, rfl, by simp⟩
  | cons q L ih =>
    intro fs h
    rw [List.foldlM_cons]
    have hq : q ∉ fs.files := h q (by simp)
    rw [mkdirOne, if_neg hq]
    by_cases hd : q ∈ fs.dirs
    · rw [if_pos hd]
      obtain ⟨fs2, h1, h2, h3⟩ := ih fs (fun x hx => h x (by simp [hx]))
      refine ⟨fs2, ?_, h2, ?_⟩
      · simpa using h1
      · intro x
        rw [h3 x]
        constructor
        · rintro (hx | hx)
          · exact Or.inl hx
          · exact Or.inr (by simp [hx])
        · rintro (hx | hx)
          · exact Or.inl hx
          · rcases List.mem_cons.mp hx with rfl | hx
            · exact Or.inl hd
            · exact Or.inr hx
    · rw [if_neg hd]
      obtain ⟨fs2, h1, h2, h3⟩ :=
        ih { fs with dirs := fs.dirs ++ [q] } (fun x hx => h x (by simp [hx]))
      refine ⟨fs2, ?_, h2, ?_⟩
      · simpa using h1
      · intro x
        rw [h3 x]
        simp only [List.mem_append, List.mem_singleton, List.mem_cons]
        tauto

theorem ancestorsOf_self_mem {p : List String} (h : p ≠ []) : p ∈ ancestorsOf p := by
  rw [ancestorsOf]
  refine List.mem_map.mpr ⟨p.length - 1, ?_, ?_⟩
  · rw [List.mem_range]
    have : 0 < p.length := List.length_pos.mpr h
    omega
  · have : 0 < p.length := List.length_pos.mpr h
    rw [show p.length - 1 + 1 = p.length from by omega]
    exact List.take_length p

theorem applyUpdate_id (r : Idea) (t : Option String) (tg : Option (List String))
    (c : Option String) (now : Int) : (applyUpdate r t tg c now).id = r.id := by
  cases t <;> cases tg <;> cases c <;> simp [applyUpdate, apply_ite Idea.id]

theorem applyUpdate_modified (r : Idea) (t : Option String)
    (tg : Option (List String)) (c : Option String) (now : Int) :
    (applyUpdate r t tg c now).modified = now := by
  cases t <;> cases tg <;> cases c <;> simp [applyUpdate, apply_ite Idea.modified]

theorem buildIdeaFromKvs_err_title_none {kvs : List (List Char × YVal)}
    (body : List Char) (h : metaLookup kvs "title".data = none) :
    exceptErr (buildIdeaFromKvs kvs body) = true := by
  rw [buildIdeaFromKvs]
  split
  · rfl
  · split
    · rfl
    · rw [h]
      rfl

theorem buildIdeaFromKvs_err_modified_none {kvs : List (List Char × YVal)}
    (body : List Char) (h : metaLookup kvs "modified".data = none) :
    exceptErr (buildIdeaFromKvs kvs body) = true := by
  rw [buildIdeaFromKvs]
  split
  · rfl
  · split
    · rfl
    · split
      · rfl
      · split
        · rfl
        · rw [h]
          rfl

theorem buildIdeaFromKvs_err_modified_bad {kvs : List (List Char × YVal)}
    (body : List Char) {v : YVal} {e : FormatErr}
    (h1 : metaLookup kvs "modified".data = some v) (h2 : coerceInt v = .error e) :
    exceptErr (buildIdeaFromKvs kvs body) = true := by
  rw [buildIdeaFromKvs]
  split
  · rfl
  · split
    · rfl
    · split
      · rfl
      · split
        · rfl
        · rw [h1]
          cases v with
          | vint n => simp [coerceInt] at h2
          | vstr sv => rfl
          | vlist items => rfl

/-! ## The claims -/

/-- C1 (counterexample to the claim as stated): the round-trip law
fails for the type-correct record with title `a---b` and content `C`:
pyyaml emits the title as a plain scalar, `split("---", 2)` cuts
inside it, and deserialization returns title `a` (and a different
content), not title `a---b`. -/
theorem c1_round_trip_counterexample :
    fromMarkdownText (toMarkdown ⟨1, "a---b", 1, [], "C"⟩) =
      .ok ⟨1, "a", 1, [], "b\n---\n\nC"⟩ ∧
    (Idea.title ⟨1, "a", 1, [], "b\n---\n\nC"⟩ ≠ Idea.title ⟨1, "a---b", 1, [], "C"⟩) := by
  constructor
  · rfl
  · decide

/-- C1 (amended): for every record whose title and tags are plain yaml
scalars of the modelled fragment (in particular containing no `---`),
deserializing the serialization yields a record equal in `id`,
`title`, `modified` and `tags`, with content equal to the original
content after whitespace trimming. -/
theorem c1_round_trip (r : Idea) (hT : safeField r.title = true)
    (hG : ∀ t ∈ r.tags, safeField t = true) :
    fromMarkdownText (toMarkdown r) = .ok { r with content := trimString r.content } :=
  fromMarkdown_toMarkdown r hT hG

theorem c1_round_trip_witness :
    safeField "My First Idea" = true ∧
    (∀ t ∈ (["python", "markdown"] : List String), safeField t = true) ∧
    fromMarkdownText (toMarkdown
        ⟨241025154736, "My First Idea", 241025154736, ["python", "markdown"], "C"⟩) =
      .ok { (⟨241025154736, "My First Idea", 241025154736, ["python", "markdown"],
        "C"⟩ : Idea) with content := trimString "C" } :=
  ⟨by decide, by decide, c1_round_trip _ (by decide) (by decide)⟩

/-- C2 (counterexample to the claim as stated): supplying an empty
tags list to update is NOT treated like "field not supplied": for a
record created with tags `["a"]`, an update passing empty title, empty
tags list and empty content stores tags `[]`, because the source
checks `tags is not None` rather than truthiness. -/
theorem c2_empty_update_counterexample :
    updateIdea (createNewIdea [] 1 "t" ["a"] "C").2 2 1 (some "") (some []) (some "") =
      .ok (true, [("idea1.md", "---\nid: 1\nmodified: 2\ntags: []\ntitle: t\n---\n\nC")]) ∧
    loadIdeaById [("idea1.md", "---\nid: 1\nmodified: 2\ntags: []\ntitle: t\n---\n\nC")] 1 =
      .ok (some ⟨1, "t", 2, [], "C"⟩) ∧
    Idea.tags ⟨1, "t", 2, [], "C"⟩ ≠ (createNewIdea [] 1 "t" ["a"] "C").1.tags := by
  refine ⟨?_, ?_, by decide⟩
  · rfl
  · rfl

/-- C2 (amended): for an existing record, an update supplying an empty
title string and an empty content string leaves those stored fields
unchanged (truthiness checks skip them), but a supplied tags list —
empty included — is written: the stored record keeps its previous
title and content and has exactly the supplied tags, with `modified`
set to the clock value. -/
theorem c2_empty_update (s : Store) (now id : Int) (r0 : Idea) (tags2 : List String)
    (h : loadIdeaById s id = .ok (some r0)) (hid : r0.id = id)
    (hG2 : ∀ t ∈ tags2, safeField t = true) :
    updateIdea s now id (some "") (some tags2) (some "") =
      .ok (true, saveIdea s { r0 with tags := tags2, modified := now }) ∧
    loadIdeaById (saveIdea s { r0 with tags := tags2, modified := now }) id =
      .ok (some { r0 with tags := tags2, modified := now }) := by
  obtain ⟨hT, hGold, hC⟩ := loadIdea_fields h
  have happ : applyUpdate r0 (some "") (some tags2) (some "") now =
      { r0 with tags := tags2, modified := now } := rfl
  constructor
  · rw [updateIdea_of_some h, happ]
  · rw [← hid]
    have hload := loadIdeaById_saveIdea_ok s { r0 with tags := tags2, modified := now }
      hT hG2
    simpa [hC] using hload

theorem c2_empty_update_witness :
    loadIdeaById (createNewIdea [] 1 "t" ["a"] "C").2 1 =
      .ok (some ⟨1, "t", 1, ["a"], "C"⟩) ∧
    updateIdea (createNewIdea [] 1 "t" ["a"] "C").2 2 1 (some "") (some []) (some "") =
      .ok (true, saveIdea (createNewIdea [] 1 "t" ["a"] "C").2
        { (⟨1, "t", 1, ["a"], "C"⟩ : Idea) with tags := ([] : List String), modified := 2 }) :=
  ⟨by rfl,
    (c2_empty_update (createNewIdea [] 1 "t" ["a"] "C").2 2 1 ⟨1, "t", 1, ["a"], "C"⟩ []
      (by rfl) (by decide) (by decide)).1⟩

/-- C3 (counterexample to the claim as stated): create-then-load fails
for the title `a---b` (content `C`): the created record carries the
given title, but loading it back yields title `a` and content
`b\n---\n\nC`. -/
theorem c3_create_then_load_counterexample :
    (createNewIdea [] 1 "a---b" [] "C").1.title = "a---b" ∧
    loadIdeaById (createNewIdea [] 1 "a---b" [] "C").2 1 =
      .ok (some ⟨1, "a", 1, [], "b\n---\n\nC"⟩) ∧
    Idea.title ⟨1, "a", 1, [], "b\n---\n\nC"⟩ ≠ "a---b" := by
  refine ⟨rfl, ?_, by decide⟩
  rfl

/-- C3 (amended): for title and tags in the modelled plain-scalar
fragment, `create_new_idea` at clock value `now` returns the record
with `id = now`, `modified = id`, and the given title, tags and
content, and loading that id back yields the same record with content
trimmed. -/
theorem c3_create_then_load (s : Store) (now : Int) (title : String)
    (tags : List String) (content : String)
    (hT : safeField title = true) (hG : ∀ t ∈ tags, safeField t = true) :
    (createNewIdea s now title tags content).1 = ⟨now, title, now, tags, content⟩ ∧
    loadIdeaById (createNewIdea s now title tags content).2 now =
      .ok (some ⟨now, title, now, tags, trimString content⟩) := by
  refine ⟨rfl, ?_⟩
  have h := loadIdeaById_saveIdea_ok s ⟨now, title, now, tags, content⟩ hT hG
  exact h

theorem c3_create_then_load_witness :
    safeField "T" = true ∧
    (createNewIdea [] 7 "T" ["a"] "C").1 = ⟨7, "T", 7, ["a"], "C"⟩ ∧
    loadIdeaById (createNewIdea [] 7 "T" ["a"] "C").2 7 =
      .ok (some ⟨7, "T", 7, ["a"], trimString "C"⟩) :=
  ⟨by decide,
    (c3_create_then_load [] 7 "T" ["a"] "C" (by decide) (by decide)).1,
    (c3_create_then_load [] 7 "T" ["a"] "C" (by decide) (by decide)).2⟩

/-- C4: for every existing record (one `load_idea_by_id` returns) with
`modified = m0` and matching id, an update supplying only
`title = "New"` at a strictly later clock instant stores the record
with `modified = now > m0` and `title = "New"` while tags and content
are unchanged. -/
theorem c4_update_bumps_modified (s : Store) (id now m0 : Int) (r0 : Idea)
    (h : loadIdeaById s id = .ok (some r0)) (hid : r0.id = id)
    (_hm : r0.modified = m0) (hlt : m0 < now) :
    updateIdea s now id (some "New") none none =
      .ok (true, saveIdea s { r0 with title := "New", modified := now }) ∧
    loadIdeaById (saveIdea s { r0 with title := "New", modified := now }) id =
      .ok (some { r0 with title := "New", modified := now }) ∧
    m0 < ({ r0 with title := "New", modified := now } : Idea).modified := by
  obtain ⟨hT, hGold, hC⟩ := loadIdea_fields h
  have happ : applyUpdate r0 (some "New") none none now =
      { r0 with title := "New", modified := now } := rfl
  refine ⟨?_, ?_, hlt⟩
  · rw [updateIdea_of_some h, happ]
  · rw [← hid]
    have hload := loadIdeaById_saveIdea_ok s { r0 with title := "New", modified := now }
      (by decide : safeField "New" = true) hGold
    simpa [hC] using hload

theorem c4_update_bumps_modified_witness :
    loadIdeaById (createNewIdea [] 1 "t" ["a"] "C").2 1 =
      .ok (some ⟨1, "t", 1, ["a"], "C"⟩) ∧
    (1 : Int) < 2 ∧
    updateIdea (createNewIdea [] 1 "t" ["a"] "C").2 2 1 (some "New") none none =
      .ok (true, saveIdea (createNewIdea [] 1 "t" ["a"] "C").2
        { (⟨1, "t", 1, ["a"], "C"⟩ : Idea) with title := "New", modified := 2 }) :=
  ⟨by rfl, by decide,
    (c4_update_bumps_modified (createNewIdea [] 1 "t" ["a"] "C").2 1 2 1
      ⟨1, "t", 1, ["a"], "C"⟩ (by rfl) (by decide) (by decide) (by decide)).1⟩

/-- C5: for an id naming no file in the store, `load_idea_by_id`
returns None, `update_idea` returns False, and `delete_idea` returns
False; none of the three raises (the update and load results are `ok`
values of the error monad, and delete is total). -/
theorem c5_missing_id_ops (s : Store) (id now : Int) (t : Option String)
    (tg : Option (List String)) (c : Option String)
    (h : lookupFile s (ideaFileName id) = none) :
    loadIdeaById s id = .ok none ∧
    updateIdea s now id t tg c = .ok (false, s) ∧
    deleteIdea s id = (false, s) := by
  have hl := loadIdeaById_of_absent h
  refine ⟨hl, updateIdea_of_none hl, ?_⟩
  rw [deleteIdea, h]
  rfl

theorem c5_missing_id_ops_witness :
    lookupFile [] (ideaFileName 9999999999999) = none ∧
    loadIdeaById [] 9999999999999 = .ok none ∧
    updateIdea [] 1 9999999999999 (some "x") none none = .ok (false, []) ∧
    deleteIdea [] 9999999999999 = (false, []) := by
  refine ⟨by rfl, ?_, ?_, ?_⟩
  · exact (c5_missing_id_ops [] 9999999999999 1 (some "x") none none (by rfl)).1
  · exact (c5_missing_id_ops [] 9999999999999 1 (some "x") none none (by rfl)).2.1
  · exact (c5_missing_id_ops [] 9999999999999 1 (some "x") none none (by rfl)).2.2

/-- C6: `from_markdown` fails with the (abstracted) `FormatError` when
the delimiter markers are missing (fewer than two `---`, so the tuple
unpacking raises), when the metadata block does not parse as a
key-value structure, when a required key — `id`, `title` or
`modified` — is absent (KeyError), and when a required integer key —
`id` or `modified` — is not coercible to an integer (`int()` raises). -/
theorem c6_malformed_rejected (t : String) :
    (pySplit2 t.data = none → exceptErr (fromMarkdownText t) = true) ∧
    (∀ p0 p1 p2, pySplit2 t.data = some (p0, p1, p2) →
      (∀ e, parseMeta p1 = .error e → exceptErr (fromMarkdownText t) = true) ∧
      (∀ kvs, parseMeta p1 = .ok kvs →
        (metaLookup kvs "id".data = none → exceptErr (fromMarkdownText t) = true) ∧
        (∀ v e, metaLookup kvs "id".data = some v → coerceInt v = .error e →
          exceptErr (fromMarkdownText t) = true) ∧
        (metaLookup kvs "title".data = none →
          exceptErr (fromMarkdownText t) = true) ∧
        (metaLookup kvs "modified".data = none →
          exceptErr (fromMarkdownText t) = true) ∧
        (∀ v e, metaLookup kvs "modified".data = some v → coerceInt v = .error e →
          exceptErr (fromMarkdownText t) = true))) := by
  constructor
  · intro hsp
    rw [fromMarkdownText, hsp]
    rfl
  · intro p0 p1 p2 hsp
    constructor
    · intro e hpm
      rw [fromMarkdownText_eq_some hsp, buildFromParts, hpm]
      rfl
    · intro kvs hpm
      refine ⟨?_, ?_, ?_, ?_, ?_⟩
      · intro hlk
        rw [fromMarkdownText_eq_some hsp, buildFromParts_of_ok hpm,
          buildIdeaFromKvs, hlk]
        rfl
      · intro v e hlk hco
        rw [fromMarkdownText_eq_some hsp, buildFromParts_of_ok hpm,
          buildIdeaFromKvs, hlk]
        cases v with
        | vint n => simp [coerceInt] at hco
        | vstr sv => rfl
        | vlist items => rfl
      · intro hlk
        rw [fromMarkdownText_eq_some hsp, buildFromParts_of_ok hpm]
        exact buildIdeaFromKvs_err_title_none p2 hlk
      · intro hlk
        rw [fromMarkdownText_eq_some hsp, buildFromParts_of_ok hpm]
        exact buildIdeaFromKvs_err_modified_none p2 hlk
      · intro v e hlk hco
        rw [fromMarkdownText_eq_some hsp, buildFromParts_of_ok hpm]
        exact buildIdeaFromKvs_err_modified_bad p2 hlk hco

theorem c6_malformed_rejected_witness :
    exceptErr (fromMarkdownText "no markers here") = true ∧
    exceptErr (fromMarkdownText "---\n- x\n---\n\nb") = true ∧
    exceptErr (fromMarkdownText "---\ntitle: x\n---\n\nb") = true ∧
    exceptErr (fromMarkdownText "---\nid: abc\ntitle: x\nmodified: 5\n---\n\nb") = true ∧
    exceptErr (fromMarkdownText "---\nid: 1\nmodified: 5\n---\n\nb") = true ∧
    exceptErr (fromMarkdownText "---\nid: 1\ntitle: x\n---\n\nb") = true ∧
    exceptErr (fromMarkdownText "---\nid: 1\ntitle: x\nmodified: oops\n---\n\nb") = true := by
  refine ⟨?_, ?_, ?_, ?_, ?_, ?_, ?_⟩
  · exact (c6_malformed_rejected "no markers here").1 (by rfl)
  · exact ((c6_malformed_rejected "---\n- x\n---\n\nb").2 "".data "\n- x\n".data
      "\n\nb".data (by rfl)).1 (.fmt "sequence item without a key") (by rfl)
  · exact (((c6_malformed_rejected "---\ntitle: x\n---\n\nb").2 "".data
      "\ntitle: x\n".data "\n\nb".data (by rfl)).2
      [("title".data, .vstr "x".data)] (by rfl)).1 (by rfl)
  · exact (((c6_malformed_rejected "---\nid: abc\ntitle: x\nmodified: 5\n---\n\nb").2
      "".data "\nid: abc\ntitle: x\nmodified: 5\n".data "\n\nb".data (by rfl)).2
      [("id".data, .vstr "abc".data), ("title".data, .vstr "x".data),
        ("modified".data, .vint 5)] (by rfl)).2.1
      (.vstr "abc".data) (.fmt "int() failed") (by rfl) (by rfl)
  · exact (((c6_malformed_rejected "---\nid: 1\nmodified: 5\n---\n\nb").2
      "".data "\nid: 1\nmodified: 5\n".data "\n\nb".data (by rfl)).2
      [("id".data, .vint 1), ("modified".data, .vint 5)] (by rfl)).2.2.1 (by rfl)
  · exact (((c6_malformed_rejected "---\nid: 1\ntitle: x\n---\n\nb").2
      "".data "\nid: 1\ntitle: x\n".data "\n\nb".data (by rfl)).2
      [("id".data, .vint 1), ("title".data, .vstr "x".data)] (by rfl)).2.2.2.1 (by rfl)
  · exact (((c6_malformed_rejected "---\nid: 1\ntitle: x\nmodified: oops\n---\n\nb").2
      "".data "\nid: 1\ntitle: x\nmodified: oops\n".data "\n\nb".data (by rfl)).2
      [("id".data, .vint 1), ("title".data, .vstr "x".data),
        ("modified".data, .vstr "oops".data)] (by rfl)).2.2.2.2
      (.vstr "oops".data) (.fmt "int() failed") (by rfl) (by rfl)

/-- C7 (counterexample to the claim as stated): when the path exists
as a non-directory entry, `__init__` does not fail with StorageError —
`os.path.exists` is true, so `os.makedirs` is skipped and construction
succeeds leaving the filesystem untouched. -/
theorem c7_init_counterexample :
    (⟨[], [["p"]]⟩ : Fs).dirs = [] ∧
    (["p"] ∈ (⟨[], [["p"]]⟩ : Fs).files) ∧
    ideaManagerInit ⟨[], [["p"]]⟩ ["p"] = .ok ⟨[], [["p"]]⟩ :=
  ⟨rfl, by decide, by rfl⟩

/-- C7 (amended): if an entry exists at the path — directory or not —
construction succeeds without touching the filesystem; if no entry
exists (and no ancestor of the path is a non-directory entry), the
directory and its missing parents are created. -/
theorem c7_init_behavior (fs : Fs) (dir : List String) :
    (fsExists fs dir = true → ideaManagerInit fs dir = .ok fs) ∧
    (fsExists fs dir = false → dir ≠ [] → (∀ q ∈ ancestorsOf dir, q ∉ fs.files) →
      ∃ fs2, ideaManagerInit fs dir = .ok fs2 ∧ fs2.files = fs.files ∧
        dir ∈ fs2.dirs ∧ ∀ q ∈ ancestorsOf dir, q ∈ fs2.dirs) := by
  constructor
  · intro h
    rw [ideaManagerInit, if_pos h]
  · intro h hne hfiles
    rw [ideaManagerInit, if_neg (by simp [h])]
    obtain ⟨fs2, h1, h2, h3⟩ := makedirs_spec (ancestorsOf dir) fs hfiles
    refine ⟨fs2, ?_, h2, ?_, ?_⟩
    · rw [makedirs]
      exact h1
    · exact (h3 dir).mpr (Or.inr (ancestorsOf_self_mem hne))
    · intro q hq
      exact (h3 q).mpr (Or.inr hq)

theorem c7_init_behavior_witness :
    fsExists ⟨[["d"]], []⟩ ["d"] = true ∧
    ideaManagerInit ⟨[["d"]], []⟩ ["d"] = .ok ⟨[["d"]], []⟩ ∧
    fsExists ⟨[], []⟩ ["a", "b"] = false ∧
    (∃ fs2, ideaManagerInit ⟨[], []⟩ ["a", "b"] = .ok fs2 ∧
      fs2.files = ([] : List (List String)) ∧
      ["a", "b"] ∈ fs2.dirs ∧ ∀ q ∈ ancestorsOf ["a", "b"], q ∈ fs2.dirs) :=
  ⟨by decide, (c7_init_behavior ⟨[["d"]], []⟩ ["d"]).1 (by decide), by decide,
    (c7_init_behavior ⟨[], []⟩ ["a", "b"]).2 (by decide) (by decide) (by decide)⟩

/-- C8 (counterexample to the claim as stated): `load_all_ideas`
filters on the `.md` suffix only, not the `idea<id>.md` convention: a
file named `x.md` — a name no id produces — contributes a record. -/
theorem c8_list_all_counterexample :
    loadAllIdeas [("x.md", toMarkdown ⟨1, "t", 1, [], "C"⟩)] =
      .ok [⟨1, "t", 1, [], "C"⟩] ∧
    ∀ id : Int, ideaFileName id ≠ "x.md" := by
  constructor
  · decide
  · intro id h
    have h1 : (ideaFileName id).data.head? = some 'i' := rfl
    rw [h] at h1
    exact absurd h1 (by decide)

/-- C8 (amended): `load_all_ideas` enumerates exactly the files whose
name ends in `.md` (regardless of prefix or id), parses each with
`from_markdown` in directory order, and returns one record per such
file; when every `.md` file parses, non-`.md` files contribute
nothing. -/
theorem c8_list_all (s : Store) (g : String × String → Idea)
    (h : ∀ f ∈ s, strEndsWith f.1 ".md" = true → fromMarkdownText f.2 = .ok (g f)) :
    loadAllIdeas s = .ok ((s.filter (fun f => strEndsWith f.1 ".md")).map g) :=
  loadAllIdeas_of_parses s g h

theorem c8_list_all_witness :
    loadAllIdeas [("idea1.md", toMarkdown ⟨1, "t", 1, [], "C"⟩), ("notes.txt", "junk")] =
      .ok [⟨1, "t", 1, [], "C"⟩] := by
  have h := c8_list_all
    [("idea1.md", toMarkdown ⟨1, "t", 1, [], "C"⟩), ("notes.txt", "junk")]
    (fun _ => ⟨1, "t", 1, [], "C"⟩) (by decide)
  rw [h]
  decide

/-- C9: every record reachable through the in-memory
operations of the store itself — `create_new_idea`, followed by any sequence of
`update_idea` field mutations at non-decreasing clock values — has
`modified` at least `id`: create initializes `modified = id` and every
update sets `modified` to the current clock value, which is never
below the creation instant. -/
theorem c9_modified_never_below_id {t : Int} {r : Idea} (h : ReachableIdea t r) :
    r.id ≤ r.modified ∧ r.modified ≤ t := by
  induction h with
  | create s now title tags content => exact ⟨le_refl now, le_refl now⟩
  | update hr ht title tags content ih =>
    obtain ⟨h1, h2⟩ := ih
    rw [applyUpdate_modified, applyUpdate_id]
    omega

theorem c9_modified_never_below_id_witness :
    ReachableIdea 7 (applyUpdate (createNewIdea [] 5 "t" [] "c").1
      (some "New") none none 7) ∧
    (applyUpdate (createNewIdea [] 5 "t" [] "c").1 (some "New") none none 7).id ≤
      (applyUpdate (createNewIdea [] 5 "t" [] "c").1 (some "New") none none 7).modified := by
  have hr : ReachableIdea 7 (applyUpdate (createNewIdea [] 5 "t" [] "c").1
      (some "New") none none 7) :=
    .update (.create [] 5 "t" [] "c") (by decide) (some "New") none none
  exact ⟨hr, (c9_modified_never_below_id hr).1⟩

/-- C10: an update on an id naming no file returns False and performs
no write at all: the store it returns is the very store it was given,
so no file is created and every existing file is unchanged. -/
theorem c10_failed_update_no_write (s : Store) (now id : Int) (t : Option String)
    (tg : Option (List String)) (c : Option String)
    (h : lookupFile s (ideaFileName id) = none) :
    updateIdea s now id t tg c = .ok (false, s) :=
  updateIdea_of_none (loadIdeaById_of_absent h)

theorem c10_failed_update_no_write_witness :
    lookupFile [("x.md", "junk")] (ideaFileName 2) = none ∧
    updateIdea [("x.md", "junk")] 5 2 (some "T") (some ["a"]) (some "C") =
      .ok (false, [("x.md", "junk")]) :=
  ⟨by rfl, c10_failed_update_no_write [("x.md", "junk")] 5 2
    (some "T") (some ["a"]) (some "C") (by rfl)⟩

end Itrk
